import Mathlib

/-!
Verification of the documentation-link resolution core of tinymist
(`crates/tinymist-analysis/src/upstream/mod.rs`).

Rust strings are embedded as `List Char` (`Str`).  The typst standard
library (`LIBRARY`), its `Scope`/`Binding`/`Value` tree, and the embedded
`groups.yml` data are external to the repository; they are modelled from
the spec as explicit parameters (`Lib`, `List GroupData`) threaded through
every function that the Rust code reads through lazy statics.
-/

set_option maxHeartbeats 1000000
set_option maxRecDepth 4000
set_option linter.unnecessarySeqFocus false

/-- Rust `&str`, embedded as a list of characters. -/
abbrev Str := List Char

/-- Convert a Lean string literal to the `Str` embedding. -/
def strOf (s : String) : Str := s.data

/-- The backtick character (written via its code point). -/
def backtickChar : Char := Char.ofNat 96

/-- `s.starts_with(pre)` on Rust strings. -/
def hasPfx : Str → Str → Bool
  | [], _ => true
  | _ :: _, [] => false
  | p :: ps, c :: cs => p == c && hasPfx ps cs

/-- `s.ends_with(sfx)` on Rust strings. -/
def hasSfx (sfx s : Str) : Bool := hasPfx sfx.reverse s.reverse

/-- `s.contains(c)` on Rust strings. -/
def hasChar (c : Char) (s : Str) : Bool := s.any (fun x => x == c)

/-- Rust `str::split(c)`: split at every occurrence of `c`; an empty input
gives one empty segment, a trailing separator gives a trailing empty
segment. -/
def splitChar (c : Char) : Str → List Str
  | [] => [[]]
  | x :: xs =>
    if x = c then [] :: splitChar c xs
    else
      match splitChar c xs with
      | [] => [[x]]
      | s :: ss => (x :: s) :: ss

/-- Modelled from the spec: the display-name carrying `Category` tag of the
external namespace tree (typst `Category`). -/
structure Category where
  cname : Str
deriving DecidableEq

/-- Modelled from the spec: the identity-carrying representation of an
external typst `Func` (`func::Repr`): native/built-in, element/structural,
or closure/user-defined.  Identity of the static native and element data is
embedded as a numeric id; `closure` covers every user-defined
representation. -/
inductive FuncRepr where
  | native (id : Nat)
  | element (id : Nat)
  | closure (id : Nat)
deriving DecidableEq

mutual
/-- Modelled from the spec: an external typst `Value` restricted to the
shapes the core reads: functions, types, modules and everything else. -/
inductive Value where
  | func (f : FuncData)
  | typ (t : TypeData)
  | module (m : Scope)
  | other

/-- Modelled from the spec: an external typst `Func`: representation
identity, optional name, parameter names, optional associated scope. -/
inductive FuncData where
  | mk (rep : FuncRepr) (fnm : Option Str) (fparams : List Str) (fscope : Option Scope)

/-- Modelled from the spec: an external typst `Type`: identity, name and
associated scope. -/
inductive TypeData where
  | mk (tid : Nat) (tnm : Str) (tscope : Scope)

/-- Modelled from the spec: a named, optionally categorized binding of the
external namespace tree. -/
inductive Binding where
  | mk (bnm : Str) (bcat : Option Category) (bval : Value)

/-- Modelled from the spec: a scope of the external namespace tree. -/
inductive Scope where
  | mk (bs : List Binding)
end

def Binding.bname : Binding → Str
  | .mk n _ _ => n

def Binding.cat : Binding → Option Category
  | .mk _ c _ => c

def Binding.val : Binding → Value
  | .mk _ _ v => v

def Scope.binds : Scope → List Binding
  | .mk bs => bs

/-- `Scope::get`: look a name up in a scope. -/
def Scope.get (s : Scope) (n : Str) : Option Binding :=
  s.binds.find? (fun b => b.bname == n)

def FuncData.rep : FuncData → FuncRepr
  | .mk r _ _ _ => r

def FuncData.fname : FuncData → Option Str
  | .mk _ n _ _ => n

def FuncData.params : FuncData → List Str
  | .mk _ _ p _ => p

def FuncData.fscope : FuncData → Option Scope
  | .mk _ _ _ s => s

def TypeData.tid : TypeData → Nat
  | .mk i _ _ => i

def TypeData.tscope : TypeData → Scope
  | .mk _ _ s => s

/-- Modelled from the spec: the external `LIBRARY` with its two root
scopes, the general namespace and the math namespace. -/
structure Lib where
  global : Scope
  math : Scope

/-- Data about a collection of functions (`GroupData` in the source, loaded
from the embedded `groups.yml`; modelled here as an explicit parameter,
already filled). -/
structure GroupData where
  gname : Str
  gcategory : Str
  gpath : List Str
  gfilter : List Str
deriving DecidableEq

/-- `Module::field`, modelled from the spec: look up a name in a module
scope, yielding its value or an error. -/
def Scope.fieldV (s : Scope) (n : Str) : Except Str Value :=
  match s.get n with
  | some b => .ok b.val
  | none => .error (strOf "module does not contain field " ++ n)

/-- `Value::field`, modelled from the spec: look up a name in the scope
associated with a function, type or module value. -/
def Value.fieldV : Value → Str → Except Str Value
  | .func f, n =>
    match f.fscope with
    | some s => s.fieldV n
    | none => .error (strOf "cannot access fields on this value")
  | .typ t, n => t.tscope.fieldV n
  | .module m, n => m.fieldV n
  | .other, _ => .error (strOf "cannot access fields on this value")

/-- `Value::cast::<Func>`, modelled from the spec ("the value itself is
directly callable"): only function values cast to a function here. -/
def castFunc : Value → Option FuncData
  | .func f => some f
  | _ => none

/-- Rust `to_ascii_lowercase` on one character. -/
def asciiLower (c : Char) : Char :=
  if 'A' ≤ c ∧ c ≤ 'Z' then Char.ofNat (c.toNat + 32) else c

/-- Turn a title into an URL fragment (`urlify`). -/
def urlify (title : Str) : Str :=
  title.map (fun ch =>
    let ch := asciiLower ch
    if ('a' ≤ ch ∧ ch ≤ 'z') ∨ ('0' ≤ ch ∧ ch ≤ '9') then ch else '-')

/-- Split a link at the first slash (`split_link`). -/
def split_link (link : Str) : Except Str (Str × Str) :=
  let first := (splitChar '/' link).headD link
  let rest := (link.drop first.length).dropWhile (fun c => c = '/')
  .ok (first, rest)

/-- Resolve a `$` link head to a known destination (`resolve_known`). -/
def resolve_known (head base : Str) : Option Str :=
  if head == strOf "$tutorial" then some (base ++ strOf "tutorial")
  else if head == strOf "$reference" then some (base ++ strOf "reference")
  else if head == strOf "$category" then some (base ++ strOf "reference")
  else if head == strOf "$syntax" then some (base ++ strOf "reference/syntax")
  else if head == strOf "$styling" then some (base ++ strOf "reference/styling")
  else if head == strOf "$scripting" then some (base ++ strOf "reference/scripting")
  else if head == strOf "$context" then some (base ++ strOf "reference/context")
  else if head == strOf "$guides" then some (base ++ strOf "guides")
  else if head == strOf "$changelog" then some (base ++ strOf "changelog")
  else if head == strOf "$community" then some (base ++ strOf "community")
  else if head == strOf "$universe" then some (strOf "https://typst.app/universe")
  else none

/-- Extract a module from another module (`get_module`). -/
def get_module (parent : Scope) (name : Str) : Except Str Scope :=
  match (parent.get name).map Binding.val with
  | some (Value.module m) => .ok m
  | _ => .error (strOf "module does not contain module " ++ name)

/-- The while-loop of `resolve_definition`: walk dotted segments from the
root, capturing the first `Category` seen, descending into nested modules,
and stopping (with the remaining segments) at the first non-module
segment. -/
def walk (focus : Scope) (cat : Option Category) : List Str → Scope × Option Category × List Str
  | [] => (focus, cat, [])
  | name :: rest =>
    let cat2 := if cat.isNone then (focus.get name).bind Binding.cat else cat
    match get_module focus name with
    | .ok m => walk m cat2 rest
    | .error _ => (focus, cat2, name :: rest)

/-- Resolve a `$` link to a global definition (`resolve_definition`). -/
def resolve_definition (G : List GroupData) (lib : Lib) (head base : Str) : Except Str Str :=
  let parts := splitChar '.' (head.dropWhile (fun c => c = '$'))
  match walk lib.global none parts with
  | (_, none, _) => .error (head ++ strOf " has no category")
  | (focus, some category, rest) =>
    match rest with
    | [] => .error (strOf "link is missing first part")
    | name :: rest =>
      match focus.fieldV name with
      | .error e => .error e
      | .ok value =>
        match G.find? (fun g => g.gcategory == category.cname && g.gfilter.any (fun f => f == name)) with
        | some group =>
          let route := base ++ strOf "reference/" ++ group.gcategory ++ strOf "/" ++ group.gname
            ++ strOf "/#functions-" ++ name
          match rest.head? with
          | some param => .ok (route ++ strOf "-" ++ param)
          | none => .ok route
        | none =>
          let route := base ++ strOf "reference/" ++ category.cname ++ strOf "/" ++ name
          match rest with
          | [] => .ok route
          | next :: rest2 =>
            match value.fieldV next with
            | .ok fieldv =>
              let route := route ++ strOf "/#definitions-" ++ next
              match rest2.head? with
              | some nx2 =>
                match castFunc fieldv with
                | some fd =>
                  if fd.params.any (fun p => p == nx2) then .ok (route ++ strOf "-" ++ nx2)
                  else .ok route
                | none => .ok route
              | none => .ok route
            | .error _ =>
              match castFunc value with
              | some fd =>
                if fd.params.any (fun p => p == next) then .ok (route ++ strOf "/#parameters-" ++ next)
                else .error (strOf "field " ++ next ++ strOf " not found")
              | none => .error (strOf "field " ++ next ++ strOf " not found")

/-- Resolve an intra-doc link (`resolve`). -/
def resolve (G : List GroupData) (lib : Lib) (link base : Str) : Except Str Str :=
  if hasPfx (strOf "#") link || hasPfx (strOf "http") link then .ok link
  else
    match split_link link with
    | .error e => .error e
    | .ok (head, tail) =>
      match (match resolve_known head base with
             | some route => Except.ok route
             | none => resolve_definition G lib head base) with
      | .error e => .error e
      | .ok route =>
        let route := if tail.isEmpty then route else route ++ '/' :: tail
        let route :=
          if !(hasChar '#' route || hasChar '?' route) && !hasSfx (strOf "/") route
          then route ++ strOf "/" else route
        .ok route

/-- `Scanner::eat_until(c)`: the consumed part (up to, not including, the
first occurrence of `c`) and the unconsumed remainder (starting with `c`,
or empty when `c` never occurs). -/
def eatUntil (c : Char) : Str → Str × Str
  | [] => ([], [])
  | x :: xs =>
    if x = c then ([], x :: xs)
    else
      match eatUntil c xs with
      | (a, b) => (x :: a, b)

/-- The raw-span unwrapping of `plain_docs_sentence`: strip one matching
outer `{...}` or `[...]` layer. -/
def stripWrap (raw : Str) : Str :=
  if (raw.head? = some '{' ∧ raw.getLast? = some '}')
      ∨ (raw.head? = some '[' ∧ raw.getLast? = some ']') then
    (raw.drop 1).dropLast
  else raw

/-- The fixed documentation base used inside `plain_docs_sentence`. -/
def docBase : Str := strOf "https://typst.app/docs/"

/-- The fixed fallback URL for unresolvable embedded links. -/
def url404 : Str := strOf "https://typst.app/docs/404.html"

/-- The scanner loop of `plain_docs_sentence`.  The first argument is fuel;
every iteration consumes at least one input character, so fuel equal to the
input length (as supplied by `plainDocsScan`) always suffices and the
out-of-fuel arm is never taken from that entry point. -/
def scanLoop (G : List GroupData) (lib : Lib) : Nat → Str → Bool → Str
  | 0, _, _ => []
  | _ + 1, [], _ => []
  | fuel + 1, ch :: rest, link =>
    if ch = backtickChar then
      let p := eatUntil backtickChar rest
      backtickChar :: stripWrap p.1 ++ backtickChar :: scanLoop G lib fuel (p.2.drop 1) link
    else if ch = '[' then
      '[' :: scanLoop G lib fuel rest true
    else if ch = ']' ∧ link = true then
      match rest with
      | c2 :: rest1 =>
        if c2 = '(' then
          let p := eatUntil ')' rest1
          let url := match resolve G lib p.1 docBase with
            | .ok u => u
            | .error _ => url404
          ']' :: '(' :: url ++ ')' :: scanLoop G lib fuel (p.2.drop 1) false
        else if c2 = '[' then
          let p := eatUntil ']' rest1
          ']' :: '[' :: p.1 ++ (if p.2.isEmpty then [] else [']'])
            ++ scanLoop G lib fuel (p.2.drop 1) false
        else ']' :: scanLoop G lib fuel rest false
      | [] => ']' :: scanLoop G lib fuel rest false
    else
      ch :: scanLoop G lib fuel rest link

/-- Run the scanner with its canonical fuel (the input length). -/
def plainDocsScan (G : List GroupData) (lib : Lib) (inp : Str) (link : Bool) : Str :=
  scanLoop G lib inp.length inp link

/-- The replaced pattern of the pre-scan substitution. -/
def exPat : Str := strOf "```example"

/-- The replacement of the pre-scan substitution. -/
def exRep : Str := strOf "```typ"

/-- Rust `str::replace("```example", "```typ")`, fuelled structurally (one
fuel per emitted character position; fuel equal to the input length always
suffices). -/
def replaceExampleAux : Nat → Str → Str
  | 0, s => s
  | fuel + 1, s =>
    match s with
    | [] => []
    | c :: rest =>
      if hasPfx exPat (c :: rest) then exRep ++ replaceExampleAux fuel ((c :: rest).drop exPat.length)
      else c :: replaceExampleAux fuel rest

/-- Rust `docs.replace("```example", "```typ")`. -/
def replaceExample (s : Str) : Str := replaceExampleAux s.length s

/-- Extract the first sentence of plain text of a piece of documentation
(`plain_docs_sentence`): the pre-scan fence substitution followed by the
single-pass scan. -/
def plain_docs_sentence (G : List GroupData) (lib : Lib) (docs : Str) : Str :=
  plainDocsScan G lib (replaceExample docs) false

/-- The identity key of the reverse index (`CatKey`). -/
inductive CatKey where
  | func (f : FuncData)
  | typ (t : TypeData)

/-- `CatKey`'s manual `PartialEq::eq`: function keys compare only through
native or element identity (closures are never equal, not even to
themselves); type keys compare by type identity. -/
def CatKey.eq : CatKey → CatKey → Bool
  | .func a, .func b =>
    match a.rep, b.rep with
    | .native i, .native j => i == j
    | .element i, .element j => i == j
    | _, _ => false
  | .typ a, .typ b => a.tid == b.tid
  | _, _ => false

/-- A pending traversal item of the `ROUTE_MAPS` build: a scope with its
inherited parent name and category. -/
abbrev WorkItem := Scope × Option Str × Option Category

/-- The per-binding body of the `ROUTE_MAPS` build loop: the insertions it
performs and the work items it pushes.  Mirrors the Rust `match bind.read()`
including both `continue`s in the function arm (an unnamed or grouped
function under a known category pushes no nested scope). -/
def processBinding (G : List GroupData) (parentName : Option Str) (cat : Option Category) :
    Binding → List (CatKey × Str) × List WorkItem
  | .mk bn bcat bval =>
  let cat := cat.or bcat
  let name := urlify bn
  match bval with
  | .func f =>
    let pushes : List WorkItem :=
      match f.fscope with
      | some s => [(s, some name, cat)]
      | none => []
    match cat with
    | some c =>
      match f.fname with
      | none => ([], [])
      | some fname =>
        match G.find? (fun g => g.gcategory == c.cname && g.gfilter.any (fun x => x == fname)) with
        | some group =>
          ([(CatKey.func f,
             strOf "reference/" ++ group.gcategory ++ strOf "/" ++ group.gname
               ++ strOf "/#functions-" ++ fname)], [])
        | none =>
          let route := match parentName with
            | some pn => strOf "reference/" ++ c.cname ++ strOf "/" ++ pn
                ++ strOf "/#definitions-" ++ fname
            | none => strOf "reference/" ++ c.cname ++ strOf "/" ++ fname ++ strOf "/"
          ([(CatKey.func f, route)], pushes)
    | none => ([], pushes)
  | .typ t =>
    let inserts : List (CatKey × Str) :=
      match cat with
      | some c =>
        let route := match parentName with
          | some pn => strOf "reference/" ++ c.cname ++ strOf "/" ++ pn
              ++ strOf "/#definitions-" ++ name
          | none => strOf "reference/" ++ c.cname ++ strOf "/" ++ name ++ strOf "/"
        [(CatKey.typ t, route)]
      | none => []
    (inserts, [(t.tscope, some name, cat)])
  | .module m => ([], [(m, some name, cat)])
  | .other => ([], [])

/-- The for-loop of the `ROUTE_MAPS` build over one scope's bindings, in
scope order: accumulated insertions and pushed work items. -/
def processBindings (G : List GroupData) (parentName : Option Str) (cat : Option Category) :
    List Binding → List (CatKey × Str) × List WorkItem
  | [] => ([], [])
  | b :: bs =>
    let p := processBinding G parentName cat b
    let ps := processBindings G parentName cat bs
    (p.1 ++ ps.1, p.2 ++ ps.2)

mutual
/-- Size of a value, for the traversal fuel bound. -/
def Value.vsize : Value → Nat
  | .func f => 1 + f.fsize
  | .typ t => 1 + t.tsize
  | .module m => 1 + m.ssize
  | .other => 1

/-- Size of a function datum, for the traversal fuel bound. -/
def FuncData.fsize : FuncData → Nat
  | .mk _ _ _ none => 1
  | .mk _ _ _ (some s) => 1 + s.ssize

/-- Size of a type datum, for the traversal fuel bound. -/
def TypeData.tsize : TypeData → Nat
  | .mk _ _ s => 1 + s.ssize

/-- Size of a binding, for the traversal fuel bound. -/
def Binding.bsize : Binding → Nat
  | .mk _ _ v => 1 + v.vsize

/-- Size of a binding list, for the traversal fuel bound. -/
def bindsSize : List Binding → Nat
  | [] => 1
  | b :: bs => 1 + b.bsize + bindsSize bs

/-- Size of a scope, for the traversal fuel bound. -/
def Scope.ssize : Scope → Nat
  | .mk bs => 1 + bindsSize bs
end

/-- Fuel bound for the worklist loop: the total size of the pending scopes.
Each pop removes one scope and pushes only strictly smaller children, so
this strictly decreases with every iteration. -/
def workMeasure (work : List WorkItem) : Nat :=
  (work.map (fun w => w.1.ssize)).sum

/-- The `while let Some(..) = scope_to_finds.pop()` loop of the
`ROUTE_MAPS` build.  The head of the work list is the top of the Rust
`Vec` stack (children are pushed in binding order, hence prepended in
reverse).  The result is the sequence of `map.insert` calls in execution
order. -/
def buildLoop (G : List GroupData) : Nat → List WorkItem → List (CatKey × Str)
  | 0, _ => []
  | _ + 1, [] => []
  | fuel + 1, (s, pn, cat) :: rest =>
    let p := processBindings G pn cat s.binds
    p.1 ++ buildLoop G fuel (p.2.reverse ++ rest)

/-- The initial worklist of the build: the Rust vec `[global, math]`, whose
first pop takes the math scope. -/
def initWork (lib : Lib) : List WorkItem :=
  [(lib.math, none, none), (lib.global, none, none)]

/-- `ROUTE_MAPS` as the sequence of hash-map insertions performed by the
build, in execution order. -/
def ROUTE_MAPS (G : List GroupData) (lib : Lib) : List (CatKey × Str) :=
  buildLoop G (workMeasure (initWork lib)) (initWork lib)

/-- `HashMap::get` under `CatKey`'s partial equality: since later `insert`s
with an equal key overwrite earlier ones, a lookup returns the value of the
last insertion whose key compares equal. -/
def lookupRoute (m : List (CatKey × Str)) (k : CatKey) : Option Str :=
  (m.reverse.find? (fun e => CatKey.eq k e.1)).map (fun e => e.2)

/-- Get the route of a value (`route_of_value`). -/
def route_of_value (G : List GroupData) (lib : Lib) (val : Value) : Option Str :=
  match val with
  | .func f => lookupRoute (ROUTE_MAPS G lib) (CatKey.func f)
  | .typ t => lookupRoute (ROUTE_MAPS G lib) (CatKey.typ t)
  | _ => none

/-- A concrete native function, modelled from the spec and the repository
test `docs_test`: the library's `cite` function. -/
def citeFunc : FuncData := .mk (.native 0) (some (strOf "cite")) [] none

/-- Modelled from the spec: a concrete instance of the external library
holding the one binding the repository test `docs_test` exercises
(`cite`, categorized under `model`). -/
def testLib : Lib :=
  ⟨Scope.mk [Binding.mk (strOf "cite") (some ⟨strOf "model"⟩) (Value.func citeFunc)], Scope.mk []⟩

/-- Modelled from the spec: a concrete group table (empty: `cite` is not
grouped). -/
def testGroups : List GroupData := []

/-- Sanity check against the repository test `docs_test`: the `$cite` link
resolves to the canonical cite page. -/
theorem docs_test_cite :
    plain_docs_sentence testGroups testLib (strOf "[citation]($cite)")
      = strOf "[citation](https://typst.app/docs/reference/model/cite/)" := by
  rfl

/-- C7: reference-style links are copied verbatim and never resolved:
`[citation][cite]`, `[citation][cite][cite2]` and
`[citation][cite](test)[cite2]` all pass through `plain_docs_sentence`
unchanged, for every group table and library; in the last input `(test)`
is plain text because the bracket pair before it is a reference-style
span. -/
theorem c7_reference_links_verbatim (G : List GroupData) (lib : Lib) :
    plain_docs_sentence G lib (strOf "[citation][cite]") = strOf "[citation][cite]"
    ∧ plain_docs_sentence G lib (strOf "[citation][cite][cite2]") = strOf "[citation][cite][cite2]"
    ∧ plain_docs_sentence G lib (strOf "[citation][cite](test)[cite2]")
        = strOf "[citation][cite](test)[cite2]" := by
  refine ⟨?_, ?_, ?_⟩ <;>
    simp [plain_docs_sentence, plainDocsScan, replaceExample, replaceExampleAux, scanLoop,
      eatUntil, stripWrap, strOf, backtickChar, hasPfx, exPat, exRep]

/-- C2 (amended): `resolve` returns links starting with `#` or with the
literal prefix `http` unchanged, for every group table, library and
base. -/
theorem c2_http_identity (G : List GroupData) (lib : Lib) (link base : Str)
    (h : (hasPfx (strOf "#") link || hasPfx (strOf "http") link) = true) :
    resolve G lib link base = .ok link := by
  simp [resolve, h]

/-- Witness for C2 (amended) at the concrete link `#x`. -/
theorem c2_http_identity_witness :
    (hasPfx (strOf "#") (strOf "#x") || hasPfx (strOf "http") (strOf "#x")) = true
    ∧ resolve testGroups testLib (strOf "#x") (strOf "b/") = .ok (strOf "#x") :=
  ⟨by decide, c2_http_identity testGroups testLib (strOf "#x") (strOf "b/") (by decide)⟩

/-- C2 counterexample: `mailto:x` starts with a URL scheme, yet `resolve`
does not return it unchanged — it fails with "has no category". -/
theorem c2_counterexample :
    resolve testGroups testLib (strOf "mailto:x") (strOf "b/") = .error (strOf "mailto:x has no category")
    ∧ resolve testGroups testLib (strOf "mailto:x") (strOf "b/") ≠ .ok (strOf "mailto:x") := by
  have h0 : resolve testGroups testLib (strOf "mailto:x") (strOf "b/")
      = .error (strOf "mailto:x has no category") := by rfl
  exact ⟨h0, fun h => Except.noConfusion (h0.symm.trans h)⟩

/-- A function key whose representation is a closure compares unequal to
every key, on either side. -/
theorem catKeyEq_closure (f : FuncData) (i : Nat) (hf : f.rep = FuncRepr.closure i) (k : CatKey) :
    CatKey.eq (CatKey.func f) k = false ∧ CatKey.eq k (CatKey.func f) = false := by
  obtain ⟨r, nm, ps, sc⟩ := f
  simp only [FuncData.rep] at hf
  subst hf
  cases k with
  | func g => obtain ⟨gr, gn, gp, gs⟩ := g; cases gr <;> exact ⟨rfl, rfl⟩
  | typ t => exact ⟨rfl, rfl⟩

/-- C5: `CatKey` equality holds between two function keys exactly when both
are native with the same identity or both are element with the same
identity; a closure key is never equal to any key (on either side, so not
even to a key re-derived from the same closure); two type keys are equal
exactly when the type identities coincide; function keys never equal type
keys. -/
theorem c5_catkey_equality :
    (∀ a b : FuncData, CatKey.eq (CatKey.func a) (CatKey.func b) = true ↔
      ((∃ i, a.rep = FuncRepr.native i ∧ b.rep = FuncRepr.native i)
        ∨ (∃ i, a.rep = FuncRepr.element i ∧ b.rep = FuncRepr.element i)))
    ∧ (∀ (f : FuncData) (i : Nat) (k : CatKey), f.rep = FuncRepr.closure i →
        CatKey.eq (CatKey.func f) k = false ∧ CatKey.eq k (CatKey.func f) = false)
    ∧ (∀ a b : TypeData, CatKey.eq (CatKey.typ a) (CatKey.typ b) = true ↔ a.tid = b.tid)
    ∧ (∀ (a : FuncData) (t : TypeData),
        CatKey.eq (CatKey.func a) (CatKey.typ t) = false
          ∧ CatKey.eq (CatKey.typ t) (CatKey.func a) = false) := by
  refine ⟨?_, fun f i k hf => catKeyEq_closure f i hf k, ?_, fun a t => ⟨rfl, rfl⟩⟩
  · intro a b
    obtain ⟨ar, an, ap, asc⟩ := a
    obtain ⟨br, bn, bp, bsc⟩ := b
    simp only [CatKey.eq, FuncData.rep]
    cases ar <;> cases br
    case native.native =>
      rename_i i j
      change ((i == j) = true) ↔ _
      simp only [beq_iff_eq]
      constructor
      · rintro rfl
        exact Or.inl ⟨i, rfl, rfl⟩
      · rintro (⟨k, h1, h2⟩ | ⟨k, h1, h2⟩)
        · injection h1 with h1
          injection h2 with h2
          rw [h1, h2]
        · exact FuncRepr.noConfusion h1
    case element.element =>
      rename_i i j
      change ((i == j) = true) ↔ _
      simp only [beq_iff_eq]
      constructor
      · rintro rfl
        exact Or.inr ⟨i, rfl, rfl⟩
      · rintro (⟨k, h1, h2⟩ | ⟨k, h1, h2⟩)
        · exact FuncRepr.noConfusion h1
        · injection h1 with h1
          injection h2 with h2
          rw [h1, h2]
    all_goals
      change (false = true) ↔ _
      simp
  · intro a b
    simp [CatKey.eq, beq_iff_eq]

/-- Witness for C5 at concrete keys: a closure key is unequal even to
itself, and two native keys with the same identity are equal. -/
theorem c5_catkey_equality_witness :
    ((FuncData.mk (FuncRepr.closure 5) none [] none).rep = FuncRepr.closure 5
      ∧ CatKey.eq (CatKey.func (FuncData.mk (FuncRepr.closure 5) none [] none))
          (CatKey.func (FuncData.mk (FuncRepr.closure 5) none [] none)) = false)
    ∧ CatKey.eq (CatKey.func citeFunc) (CatKey.func citeFunc) = true := by
  refine ⟨⟨rfl, ?_⟩, by decide⟩
  exact (c5_catkey_equality.2.1 (FuncData.mk (FuncRepr.closure 5) none [] none) 5
    (CatKey.func (FuncData.mk (FuncRepr.closure 5) none [] none)) rfl).1

/-- Boolean equality on naturals is symmetric. -/
theorem beqNat_comm (i j : Nat) : (i == j) = (j == i) := by
  by_cases h : i = j
  · subst h; rfl
  · simp [h, Ne.symm h]

/-- `CatKey` equality is symmetric. -/
theorem catKeyEq_symm (k₁ k₂ : CatKey) : CatKey.eq k₁ k₂ = CatKey.eq k₂ k₁ := by
  cases k₁ with
  | func a =>
    cases k₂ with
    | func b =>
      simp only [CatKey.eq]
      cases a.rep <;> cases b.rep <;> simp [beqNat_comm]
    | typ t => rfl
  | typ a =>
    cases k₂ with
    | func b => rfl
    | typ b => simp only [CatKey.eq]; exact beqNat_comm _ _

/-- `CatKey` equality is transitive. -/
theorem catKeyEq_trans {k₁ k₂ k₃ : CatKey} (h₁ : CatKey.eq k₁ k₂ = true)
    (h₂ : CatKey.eq k₂ k₃ = true) : CatKey.eq k₁ k₃ = true := by
  cases k₁ with
  | func a =>
    cases k₂ with
    | func b =>
      cases k₃ with
      | func c =>
        obtain ⟨ar, an, ap, asc⟩ := a
        obtain ⟨br, bn, bp, bsc⟩ := b
        obtain ⟨cr, cn, cp, csc⟩ := c
        simp only [CatKey.eq, FuncData.rep] at *
        cases ar <;> cases br <;> cases cr <;> simp_all [beq_iff_eq]
      | typ t => exact Bool.noConfusion h₂
    | typ b => exact Bool.noConfusion h₁
  | typ a =>
    cases k₂ with
    | func b => exact Bool.noConfusion h₁
    | typ b =>
      cases k₃ with
      | func c => exact Bool.noConfusion h₂
      | typ c =>
        simp only [CatKey.eq, beq_iff_eq] at *
        exact h₁.trans h₂

/-- Keys that compare equal compare equally against every key. -/
theorem catKeyEq_ext {k₁ k₂ : CatKey} (h : CatKey.eq k₁ k₂ = true) (e : CatKey) :
    CatKey.eq k₁ e = CatKey.eq k₂ e := by
  cases he : CatKey.eq k₂ e with
  | true => exact catKeyEq_trans h he
  | false =>
    cases he' : CatKey.eq k₁ e with
    | true =>
      have hsym : CatKey.eq k₂ k₁ = true := (catKeyEq_symm k₂ k₁).trans h
      have hc : CatKey.eq k₂ e = true := catKeyEq_trans hsym he'
      rw [hc] at he
      exact absurd he (by simp)
    | false => rfl

/-- Lookups in the route map agree on keys that compare equal. -/
theorem lookupRoute_congr (m : List (CatKey × Str)) {k₁ k₂ : CatKey}
    (h : CatKey.eq k₁ k₂ = true) : lookupRoute m k₁ = lookupRoute m k₂ := by
  unfold lookupRoute
  have hp : (fun e : CatKey × Str => CatKey.eq k₁ e.1) = fun e => CatKey.eq k₂ e.1 :=
    funext fun e => catKeyEq_ext h e.1
  rw [hp]

/-- A closure-represented function key is found by no lookup. -/
theorem lookupRoute_closure {f : FuncData} {i : Nat} (hf : f.rep = FuncRepr.closure i)
    (m : List (CatKey × Str)) : lookupRoute m (CatKey.func f) = none := by
  unfold lookupRoute
  rw [List.find?_eq_none.mpr]
  · rfl
  · intro e _
    simp [(catKeyEq_closure f i hf e.1).1]

/-- C4: `route_of_value` is referentially stable and selective: values
whose derived keys compare equal receive equal routes (for every group
table and library, hence across any number of calls); module and other
values are never routed; and a closure-represented function value yields
no route, regardless of what the index holds. -/
theorem c4_route_of_value_stable :
    (∀ (G : List GroupData) (lib : Lib) (f₁ f₂ : FuncData),
      CatKey.eq (CatKey.func f₁) (CatKey.func f₂) = true →
      route_of_value G lib (Value.func f₁) = route_of_value G lib (Value.func f₂))
    ∧ (∀ (G : List GroupData) (lib : Lib) (t₁ t₂ : TypeData),
      CatKey.eq (CatKey.typ t₁) (CatKey.typ t₂) = true →
      route_of_value G lib (Value.typ t₁) = route_of_value G lib (Value.typ t₂))
    ∧ (∀ (G : List GroupData) (lib : Lib) (m : Scope),
      route_of_value G lib (Value.module m) = none)
    ∧ (∀ (G : List GroupData) (lib : Lib), route_of_value G lib Value.other = none)
    ∧ (∀ (G : List GroupData) (lib : Lib) (f : FuncData) (i : Nat),
      f.rep = FuncRepr.closure i → route_of_value G lib (Value.func f) = none) := by
  refine ⟨?_, ?_, fun G lib m => rfl, fun G lib => rfl, ?_⟩
  · intro G lib f₁ f₂ h
    simp only [route_of_value]
    exact lookupRoute_congr _ h
  · intro G lib t₁ t₂ h
    simp only [route_of_value]
    exact lookupRoute_congr _ h
  · intro G lib f i hf
    simp only [route_of_value]
    exact lookupRoute_closure hf _

/-- Witness for C4 at concrete inputs: equal native keys give the same
(present) route, and a same-named closure value is not found even though
the `cite` symbol is indexed. -/
theorem c4_route_of_value_stable_witness :
    CatKey.eq (CatKey.func citeFunc) (CatKey.func (FuncData.mk (FuncRepr.native 0) none [] none)) = true
    ∧ route_of_value testGroups testLib (Value.func citeFunc)
        = route_of_value testGroups testLib (Value.func (FuncData.mk (FuncRepr.native 0) none [] none))
    ∧ route_of_value testGroups testLib (Value.func citeFunc) = some (strOf "reference/model/cite/")
    ∧ (FuncData.mk (FuncRepr.closure 7) (some (strOf "cite")) [] none).rep = FuncRepr.closure 7
    ∧ route_of_value testGroups testLib
        (Value.func (FuncData.mk (FuncRepr.closure 7) (some (strOf "cite")) [] none)) = none := by
  refine ⟨by decide, ?_, by rfl, rfl, ?_⟩
  · exact c4_route_of_value_stable.1 testGroups testLib citeFunc
      (FuncData.mk (FuncRepr.native 0) none [] none) (by decide)
  · exact c4_route_of_value_stable.2.2.2.2 testGroups testLib
      (FuncData.mk (FuncRepr.closure 7) (some (strOf "cite")) [] none) 7 rfl

/-- A prefix starting with a different character is not a prefix. -/
theorem hasPfx_cons_ne {c₁ c₂ : Char} (h : c₁ ≠ c₂) (p s : Str) :
    hasPfx (c₁ :: p) (c₂ :: s) = false := by
  have hb : (c₁ == c₂) = false := beq_eq_false_iff_ne.mpr h
  simp [hasPfx, hb]

/-- When the walk of `resolve_definition` captures no category, `resolve`
fails with the "has no category" error. -/
theorem resolve_no_category (G : List GroupData) (lib : Lib) (link base head tail : Str)
    (h1 : (hasPfx (strOf "#") link || hasPfx (strOf "http") link) = false)
    (h2 : split_link link = .ok (head, tail))
    (h3 : resolve_known head base = none)
    (h4 : (walk lib.global none (splitChar '.' (head.dropWhile (fun c => c = '$')))).2.1 = none) :
    resolve G lib link base = .error (head ++ strOf " has no category") := by
  have hdef : resolve_definition G lib head base = .error (head ++ strOf " has no category") := by
    simp only [resolve_definition]
    rcases hw : walk lib.global none (splitChar '.' (head.dropWhile (fun c => c = '$')))
      with ⟨focus, cat, rem⟩
    rw [hw] at h4
    simp only at h4
    subst h4
    rfl
  unfold resolve
  rw [if_neg (by simp [h1]), h2]
  simp only [h3, hdef]

/-- C9: `resolve` fails (with a single failure reason, producing no partial
route) whenever the head is undocumentable: for every head whose
category-capturing walk ends without a category the result is the
"has no category" error, and in particular every link with an empty head
(the empty link, or a link starting with `/`) fails this way provided the
library root has no binding with the empty name. -/
theorem c9_undocumentable_heads :
    (∀ (G : List GroupData) (lib : Lib) (link base head tail : Str),
       (hasPfx (strOf "#") link || hasPfx (strOf "http") link) = false →
       split_link link = .ok (head, tail) →
       resolve_known head base = none →
       (walk lib.global none (splitChar '.' (head.dropWhile (fun c => c = '$')))).2.1 = none →
       resolve G lib link base = .error (head ++ strOf " has no category"))
    ∧ (∀ (G : List GroupData) (lib : Lib) (link base : Str),
       (link = [] ∨ link.head? = some '/') →
       lib.global.get [] = none →
       resolve G lib link base = .error (strOf " has no category")) := by
  constructor
  · exact resolve_no_category
  · intro G lib link base hl hg
    have hwalk : (walk lib.global none (splitChar '.' (([] : Str).dropWhile (fun c => c = '$')))).2.1
        = none := by
      simp [walk, get_module, hg, splitChar]
    rcases hl with rfl | hh
    · have h := resolve_no_category G lib [] base [] [] (by decide) (by rfl) (by rfl) hwalk
      simpa using h
    · cases link with
      | nil => exact absurd hh (by simp)
      | cons c xs =>
        have hc : c = '/' := by simpa using hh
        subst hc
        have h1 : (hasPfx (strOf "#") ('/' :: xs) || hasPfx (strOf "http") ('/' :: xs)) = false := by
          rw [show strOf "#" = '#' :: strOf "" from rfl, show strOf "http" = 'h' :: strOf "ttp" from rfl]
          rw [hasPfx_cons_ne (by decide), hasPfx_cons_ne (by decide)]
          rfl
        have h2 : split_link ('/' :: xs) = .ok ([], xs.dropWhile (fun c => c = '/')) := by
          simp [split_link, splitChar, List.dropWhile]
        have h := resolve_no_category G lib ('/' :: xs) base [] (xs.dropWhile (fun c => c = '/'))
          h1 h2 (by rfl) hwalk
        simpa using h

/-- Witness for C9: a head that resolves to nothing documentable, and the
empty link, both fail on the concrete model library. -/
theorem c9_undocumentable_heads_witness :
    resolve testGroups testLib (strOf "nope") (strOf "B/") = .error (strOf "nope has no category")
    ∧ resolve testGroups testLib [] (strOf "B/") = .error (strOf " has no category") := by
  constructor
  · exact c9_undocumentable_heads.1 testGroups testLib (strOf "nope") (strOf "B/")
      (strOf "nope") [] (by decide) (by rfl) (by rfl) (by rfl)
  · exact c9_undocumentable_heads.2 testGroups testLib [] (strOf "B/") (Or.inl rfl) (by rfl)

/-- C1: grouped-function precedence: whenever the walk captures a category
and the leaf name is in the filter of the first group whose category
matches, `resolve_definition` returns the group-listing route
`<base>reference/<group.category>/<group.name>/#functions-<leaf>` (with
`-<segment>` appended when one more dotted segment remains), and never the
default per-symbol route `<base>reference/<category>/<leaf>` (which, being
fragment-free under the stated hypothesis, differs from every grouped
route). -/
theorem c1_grouped_precedence (G : List GroupData) (lib : Lib) (head base : Str)
    (focus : Scope) (cat : Category) (name : Str) (rest : List Str) (v : Value) (grp : GroupData)
    (hw : walk lib.global none (splitChar '.' (head.dropWhile (fun c => c = '$')))
        = (focus, some cat, name :: rest))
    (hf : focus.fieldV name = .ok v)
    (hg : G.find? (fun g => g.gcategory == cat.cname && g.gfilter.any (fun x => x == name)) = some grp)
    (hnb : hasChar '#' (base ++ strOf "reference/" ++ cat.cname ++ strOf "/" ++ name) = false) :
    resolve_definition G lib head base
      = .ok ((base ++ strOf "reference/" ++ grp.gcategory ++ strOf "/" ++ grp.gname
          ++ strOf "/#functions-" ++ name)
          ++ (match rest.head? with | some p => strOf "-" ++ p | none => []))
    ∧ resolve_definition G lib head base
        ≠ .ok (base ++ strOf "reference/" ++ cat.cname ++ strOf "/" ++ name) := by
  have hmain : resolve_definition G lib head base
      = .ok ((base ++ strOf "reference/" ++ grp.gcategory ++ strOf "/" ++ grp.gname
          ++ strOf "/#functions-" ++ name)
          ++ (match rest.head? with | some p => strOf "-" ++ p | none => [])) := by
    simp only [resolve_definition]
    rw [hw]
    simp only [hf, hg]
    cases hr : rest.head? <;> simp [hr]
  refine ⟨hmain, fun h => ?_⟩
  have heq := Except.ok.inj (hmain.symm.trans h)
  have hmem : '#' ∈ strOf "/#functions-" := by decide
  have h4 : hasChar '#' (base ++ strOf "reference/" ++ cat.cname ++ strOf "/" ++ name) = true := by
    rw [← heq]
    cases rest.head? <;> simp [hasChar, List.any_append] <;> tauto
  exact Bool.noConfusion (h4.symm.trans hnb)

/-- A concrete native function named `min`, member of a grouped listing. -/
def minFunc : FuncData := .mk (.native 1) (some (strOf "min")) [] none

/-- Modelled from the spec: a library whose root binds `min` under the
`foundations` category. -/
def grpLib : Lib :=
  ⟨Scope.mk [Binding.mk (strOf "min") (some ⟨strOf "foundations"⟩) (Value.func minFunc)],
   Scope.mk []⟩

/-- Modelled from the spec: a group table with a `calc` group of category
`foundations` whose filter holds `min`. -/
def grpG : List GroupData := [⟨strOf "calc", strOf "foundations", [], [strOf "min"]⟩]

/-- Witness for C1: on the concrete grouped library, `$min` resolves to the
group-listing route and not to the default per-symbol route. -/
theorem c1_grouped_precedence_witness :
    resolve_definition grpG grpLib (strOf "$min") (strOf "B/")
      = .ok (strOf "B/reference/foundations/calc/#functions-min")
    ∧ resolve_definition grpG grpLib (strOf "$min") (strOf "B/")
        ≠ .ok (strOf "B/reference/foundations/min") := by
  have h := c1_grouped_precedence grpG grpLib (strOf "$min") (strOf "B/") grpLib.global
    ⟨strOf "foundations"⟩ (strOf "min") [] (Value.func minFunc)
    ⟨strOf "calc", strOf "foundations", [], [strOf "min"]⟩
    (by rfl) (by rfl) (by rfl) (by decide)
  exact ⟨h.1, h.2⟩

/-- A string extended by a character ends with that character. -/
theorem hasSfx_append_self (s : Str) (c : Char) : hasSfx [c] (s ++ [c]) = true := by
  simp [hasSfx, hasPfx, List.reverse_append]

/-- Specification of the trailing-slash normalization step of `resolve`. -/
theorem normalizeRoute_spec (r₀ r : Str)
    (h : r = if !(hasChar '#' r₀ || hasChar '?' r₀) && !hasSfx (strOf "/") r₀
         then r₀ ++ strOf "/" else r₀) :
    ((hasChar '#' r || hasChar '?' r) = false → hasSfx (strOf "/") r = true)
    ∧ ((hasChar '#' r₀ || hasChar '?' r₀) = true → r = r₀) := by
  by_cases hA : (hasChar '#' r₀ || hasChar '?' r₀) = true
  · rw [if_neg (by simp [hA])] at h
    refine ⟨fun hcontra => ?_, fun _ => h⟩
    rw [h] at hcontra
    rw [hcontra] at hA
    exact Bool.noConfusion hA
  · have hA' : (hasChar '#' r₀ || hasChar '?' r₀) = false := by
      simpa using hA
    by_cases hB : hasSfx (strOf "/") r₀ = true
    · rw [if_neg (by simp [hB])] at h
      exact ⟨fun _ => by (rw [h]; exact hB), fun hc => absurd hc hA⟩
    · have hB' : hasSfx (strOf "/") r₀ = false := by simpa using hB
      rw [if_pos (by simp [hA', hB'])] at h
      refine ⟨fun _ => ?_, fun hc => absurd hc hA⟩
      rw [h, show strOf "/" = ['/'] from rfl]
      exact hasSfx_append_self r₀ '/'

/-- C8: whenever `resolve` does not take the identity branch and succeeds,
the returned route is the head route with the tail appended, normalized by
the trailing-slash rule: a `/` is appended exactly when the route contains
neither `#` nor `?` and does not already end with `/`; consequently a
fragment- and query-free result always ends with `/`, and a route
containing `#` or `?` is returned without any appended slash. -/
theorem c8_trailing_slash (G : List GroupData) (lib : Lib) (link base r : Str)
    (h0 : (hasPfx (strOf "#") link || hasPfx (strOf "http") link) = false)
    (hr : resolve G lib link base = .ok r) :
    ∃ head tail r₁ r₀,
      split_link link = .ok (head, tail)
      ∧ (resolve_known head base = some r₁
          ∨ (resolve_known head base = none ∧ resolve_definition G lib head base = .ok r₁))
      ∧ r₀ = (if tail.isEmpty then r₁ else r₁ ++ '/' :: tail)
      ∧ r = (if !(hasChar '#' r₀ || hasChar '?' r₀) && !hasSfx (strOf "/") r₀
             then r₀ ++ strOf "/" else r₀)
      ∧ ((hasChar '#' r || hasChar '?' r) = false → hasSfx (strOf "/") r = true)
      ∧ ((hasChar '#' r₀ || hasChar '?' r₀) = true → r = r₀) := by
  unfold resolve at hr
  rw [if_neg (by simp [h0])] at hr
  rcases hsl : split_link link with e | ⟨head, tail⟩
  · simp [split_link] at hsl
  rw [hsl] at hr
  dsimp only at hr
  rcases hk : resolve_known head base with _ | r₁
  · rw [hk] at hr
    rcases hd : resolve_definition G lib head base with e | r₁
    · rw [hd] at hr
      exact absurd hr (by simp)
    · rw [hd] at hr
      simp only at hr
      have hre := (Except.ok.inj hr).symm
      exact ⟨head, tail, r₁, _, rfl, Or.inr ⟨hk, hd⟩, rfl, hre,
        (normalizeRoute_spec _ r hre).1, (normalizeRoute_spec _ r hre).2⟩
  · rw [hk] at hr
    simp only at hr
    have hre := (Except.ok.inj hr).symm
    exact ⟨head, tail, r₁, _, rfl, Or.inl hk, rfl, hre,
      (normalizeRoute_spec _ r hre).1, (normalizeRoute_spec _ r hre).2⟩

/-- Witness for C8 at the concrete link `$tutorial/x`: the route gets its
single trailing slash. -/
theorem c8_trailing_slash_witness :
    (hasPfx (strOf "#") (strOf "$tutorial/x") || hasPfx (strOf "http") (strOf "$tutorial/x")) = false
    ∧ resolve testGroups testLib (strOf "$tutorial/x") (strOf "B/") = .ok (strOf "B/tutorial/x/")
    ∧ ∃ head tail r₁ r₀,
        split_link (strOf "$tutorial/x") = .ok (head, tail)
        ∧ (resolve_known head (strOf "B/") = some r₁
            ∨ (resolve_known head (strOf "B/") = none
                ∧ resolve_definition testGroups testLib head (strOf "B/") = .ok r₁))
        ∧ r₀ = (if tail.isEmpty then r₁ else r₁ ++ '/' :: tail)
        ∧ strOf "B/tutorial/x/" = (if !(hasChar '#' r₀ || hasChar '?' r₀) && !hasSfx (strOf "/") r₀
               then r₀ ++ strOf "/" else r₀)
        ∧ ((hasChar '#' (strOf "B/tutorial/x/") || hasChar '?' (strOf "B/tutorial/x/")) = false →
            hasSfx (strOf "/") (strOf "B/tutorial/x/") = true)
        ∧ ((hasChar '#' r₀ || hasChar '?' r₀) = true → strOf "B/tutorial/x/" = r₀) := by
  refine ⟨by decide, by rfl, ?_⟩
  exact c8_trailing_slash testGroups testLib (strOf "$tutorial/x") (strOf "B/")
    (strOf "B/tutorial/x/") (by decide) (by rfl)

/-- `hasChar` on a cons cell. -/
theorem hasChar_cons (c x : Char) (xs : Str) :
    hasChar c (x :: xs) = ((x == c) || hasChar c xs) := rfl

/-- `hasChar` distributes over append. -/
theorem hasChar_append (c : Char) (s t : Str) :
    hasChar c (s ++ t) = (hasChar c s || hasChar c t) := by
  simp [hasChar, List.any_append]

/-- `eatUntil` consumes the whole input when the stop character is
absent. -/
theorem eatUntil_not_mem {c : Char} : ∀ {l : Str}, hasChar c l = false → eatUntil c l = (l, [])
  | [], _ => rfl
  | x :: xs, h => by
    rw [hasChar_cons] at h
    rcases Bool.or_eq_false_iff.mp h with ⟨h1, h2⟩
    have hx : ¬ (x = c) := by simpa using h1
    simp only [eatUntil, if_neg hx, eatUntil_not_mem h2]

/-- `eatUntil` stops exactly at the first occurrence of the stop
character. -/
theorem eatUntil_append {c : Char} (suf : Str) : ∀ {pre : Str}, hasChar c pre = false →
    eatUntil c (pre ++ c :: suf) = (pre, c :: suf)
  | [], _ => by simp [eatUntil]
  | x :: xs, h => by
    rw [hasChar_cons] at h
    rcases Bool.or_eq_false_iff.mp h with ⟨h1, h2⟩
    have hx : ¬ (x = c) := by simpa using h1
    simp only [List.cons_append, eatUntil, if_neg hx, List.append_eq, eatUntil_append suf h2]

/-- The unconsumed remainder of `eatUntil` is no longer than the input. -/
theorem eatUntil_sfx_length (c : Char) : ∀ (l : Str), (eatUntil c l).2.length ≤ l.length
  | [] => Nat.le_refl 0
  | x :: xs => by
    by_cases hx : x = c
    · simp [eatUntil, hx]
    · have hrec := eatUntil_sfx_length c xs
      simp only [eatUntil, if_neg hx]
      rcases hu : eatUntil c xs with ⟨a, b⟩
      rw [hu] at hrec
      simpa using Nat.le_succ_of_le hrec

/-- The scanner emits nothing on empty input, whatever the fuel. -/
theorem scanLoop_nil (G : List GroupData) (lib : Lib) (link : Bool) :
    ∀ fuel, scanLoop G lib fuel [] link = []
  | 0 => rfl
  | _ + 1 => rfl

/-- Fuel irrelevance: any fuel at least the input length gives the
scanner's canonical result. -/
theorem scanLoop_congr (G : List GroupData) (lib : Lib) :
    ∀ (f₁ : Nat) (inp : Str) (link : Bool) (f₂ : Nat), inp.length ≤ f₁ → inp.length ≤ f₂ →
    scanLoop G lib f₁ inp link = scanLoop G lib f₂ inp link := by
  intro f₁
  induction f₁ with
  | zero =>
    intro inp link f₂ h1 h2
    have hnil : inp = [] := List.length_eq_zero.mp (Nat.le_zero.mp h1)
    subst hnil
    rw [scanLoop_nil, scanLoop_nil]
  | succ a ih =>
    intro inp link f₂ h1 h2
    cases inp with
    | nil => rw [scanLoop_nil, scanLoop_nil]
    | cons ch rest =>
      cases f₂ with
      | zero => exact absurd h2 (by simp)
      | succ b =>
        have hrest1 : rest.length ≤ a := by simpa using h1
        have hrest2 : rest.length ≤ b := by simpa using h2
        simp only [scanLoop]
        by_cases hbt : ch = backtickChar
        · rw [if_pos hbt, if_pos hbt]
          have hl : ((eatUntil backtickChar rest).2.drop 1).length ≤ rest.length := by
            have h3 := eatUntil_sfx_length backtickChar rest
            have h4 : ((eatUntil backtickChar rest).2.drop 1).length
                = (eatUntil backtickChar rest).2.length - 1 := List.length_drop 1 _
            omega
          rw [ih _ link b (le_trans hl hrest1) (le_trans hl hrest2)]
        · rw [if_neg hbt, if_neg hbt]
          by_cases hlb : ch = '['
          · rw [if_pos hlb, if_pos hlb, ih rest true b hrest1 hrest2]
          · rw [if_neg hlb, if_neg hlb]
            by_cases hrb : ch = ']' ∧ link = true
            · rw [if_pos hrb, if_pos hrb]
              cases rest with
              | nil => rw [scanLoop_nil, scanLoop_nil]
              | cons c2 rest1 =>
                dsimp only
                have hr1a : rest1.length ≤ a := by
                  simp at hrest1; omega
                have hr1b : rest1.length ≤ b := by
                  simp at hrest2; omega
                by_cases hp : c2 = '('
                · rw [if_pos hp, if_pos hp]
                  have hl : ((eatUntil ')' rest1).2.drop 1).length ≤ rest1.length := by
                    have h3 := eatUntil_sfx_length ')' rest1
                    have h4 : ((eatUntil ')' rest1).2.drop 1).length
                        = (eatUntil ')' rest1).2.length - 1 := List.length_drop 1 _
                    omega
                  rw [ih _ false b (le_trans hl hr1a) (le_trans hl hr1b)]
                · rw [if_neg hp, if_neg hp]
                  by_cases hq : c2 = '['
                  · rw [if_pos hq, if_pos hq]
                    have hl : ((eatUntil ']' rest1).2.drop 1).length ≤ rest1.length := by
                      have h3 := eatUntil_sfx_length ']' rest1
                      have h4 : ((eatUntil ']' rest1).2.drop 1).length
                          = (eatUntil ']' rest1).2.length - 1 := List.length_drop 1 _
                      omega
                    rw [ih _ false b (le_trans hl hr1a) (le_trans hl hr1b)]
                  · rw [if_neg hq, if_neg hq,
                      ih (c2 :: rest1) false b hrest1 hrest2]
            · rw [if_neg hrb, if_neg hrb, ih rest link b hrest1 hrest2]


/-- While the link flag is set, label characters other than backtick and
closing bracket pass through the scanner verbatim. -/
theorem scanLoop_plain (G : List GroupData) (lib : Lib) :
    ∀ (label : Str) (fuel : Nat) (tl : Str),
    (∀ c ∈ label, c ≠ backtickChar ∧ c ≠ ']') →
    (label ++ tl).length ≤ fuel →
    scanLoop G lib fuel (label ++ tl) true
      = label ++ scanLoop G lib (fuel - label.length) tl true := by
  intro label
  induction label with
  | nil =>
    intro fuel tl _ _
    simp
  | cons c label' ih =>
    intro fuel tl hlab hlen
    obtain ⟨hbt, hrb⟩ := hlab c (List.mem_cons_self c label')
    cases fuel with
    | zero => simp at hlen
    | succ f =>
      have hlen' : (label' ++ tl).length ≤ f := by simpa using hlen
      have hihl : ∀ d ∈ label', d ≠ backtickChar ∧ d ≠ ']' :=
        fun d hd => hlab d (List.mem_cons_of_mem c hd)
      simp only [List.cons_append, List.append_eq, scanLoop, if_neg hbt]
      by_cases hlb : c = '['
      · rw [if_pos hlb, ih f tl hihl hlen']
        subst hlb
        simp [Nat.succ_sub_succ]
      · rw [if_neg hlb, if_neg (by simp [hrb]), ih f tl hihl hlen']
        simp [Nat.succ_sub_succ]

/-- One scanner step on an opening bracket: copy it and set the link
flag. -/
theorem scanLoop_open_bracket (G : List GroupData) (lib : Lib) (fuel : Nat) (rest : Str)
    (link : Bool) :
    scanLoop G lib (fuel + 1) ('[' :: rest) link = '[' :: scanLoop G lib fuel rest true := by
  simp [scanLoop, show ¬ ('[' = backtickChar) from by decide]

/-- One scanner step on `](`: consume the parenthesized target, emit the
resolution result (or the fallback), and continue after the closing
parenthesis with the link flag cleared. -/
theorem scanLoop_close_link (G : List GroupData) (lib : Lib) (fuel : Nat) (target rest : Str)
    (htarget : hasChar ')' target = false) :
    scanLoop G lib (fuel + 1) (']' :: '(' :: (target ++ ')' :: rest)) true
      = ']' :: '(' :: ((match resolve G lib target docBase with
          | .ok u => u
          | .error _ => url404) ++ ')' :: scanLoop G lib fuel rest false) := by
  simp [scanLoop, eatUntil_append rest htarget, show ¬ (']' = backtickChar) from by decide]

/-- C6: `plain_docs_sentence` is total and degrades gracefully: on every
text of the form `[label](target)` followed by anything, where the target
fails to resolve, the scan does not abort: it emits the fixed not-found
URL wrapped in parentheses in place of the target and still processes the
remaining text. -/
theorem c6_unresolvable_fallback (G : List GroupData) (lib : Lib) (label target rest e : Str)
    (hlabel : ∀ c ∈ label, c ≠ backtickChar ∧ c ≠ ']')
    (htarget : hasChar ')' target = false)
    (hres : resolve G lib target docBase = .error e)
    (hfix : replaceExample ('[' :: (label ++ (']' :: '(' :: (target ++ ')' :: rest))))
        = '[' :: (label ++ (']' :: '(' :: (target ++ ')' :: rest)))) :
    plain_docs_sentence G lib ('[' :: (label ++ (']' :: '(' :: (target ++ ')' :: rest))))
      = '[' :: (label ++ (']' :: '(' :: (url404 ++ ')' :: plainDocsScan G lib rest false))) := by
  unfold plain_docs_sentence plainDocsScan
  rw [hfix]
  have h1 : ('[' :: (label ++ (']' :: '(' :: (target ++ ')' :: rest)))).length
      = (label.length + (target.length + rest.length + 3)) + 1 := by
    simp
    omega
  rw [h1, scanLoop_open_bracket,
    scanLoop_plain G lib label (label.length + (target.length + rest.length + 3))
      (']' :: '(' :: (target ++ ')' :: rest)) hlabel (by simp; omega)]
  have h2 : label.length + (target.length + rest.length + 3) - label.length
      = (target.length + rest.length + 2) + 1 := by omega
  rw [h2, scanLoop_close_link G lib (target.length + rest.length + 2) target rest htarget, hres]
  rw [scanLoop_congr G lib (target.length + rest.length + 2) rest false rest.length
    (by omega) (Nat.le_refl _)]

/-- Witness for C6 at a concrete input: `[a](x) ok` with unresolvable `x`
gets the fallback URL and the remainder is still scanned. -/
theorem c6_unresolvable_fallback_witness :
    (∀ c ∈ strOf "a", c ≠ backtickChar ∧ c ≠ ']')
    ∧ hasChar ')' (strOf "x") = false
    ∧ resolve testGroups testLib (strOf "x") docBase = .error (strOf "x has no category")
    ∧ plain_docs_sentence testGroups testLib
        ('[' :: (strOf "a" ++ (']' :: '(' :: (strOf "x" ++ ')' :: strOf " ok"))))
      = '[' :: (strOf "a" ++ (']' :: '(' :: (url404 ++ ')'
          :: plainDocsScan testGroups testLib (strOf " ok") false))) := by
  refine ⟨by decide, by decide, by rfl, ?_⟩
  exact c6_unresolvable_fallback testGroups testLib (strOf "a") (strOf "x") (strOf " ok")
    (strOf "x has no category") (by decide) (by decide) (by rfl) (by rfl)

/-- A prefix has at most as many occurrences of any character as the whole
string. -/
theorem hasPfx_count {p : Str} : ∀ {s : Str}, hasPfx p s = true → ∀ c, p.count c ≤ s.count c := by
  induction p with
  | nil => intro s _ c; simp
  | cons x ps ih =>
    intro s h c
    cases s with
    | nil => exact absurd h (by simp [hasPfx])
    | cons y ys =>
      rw [hasPfx] at h
      rcases Bool.and_eq_true_iff.mp h with ⟨h1, h2⟩
      have hxy : x = y := by simpa using h1
      subst hxy
      have hp := ih h2 c
      simp only [List.count_cons]
      split <;> omega

/-- The fence substitution leaves any text with fewer than three backticks
unchanged. -/
theorem replaceExampleAux_fix : ∀ (fuel : Nat) (s : Str), s.count backtickChar < 3 →
    replaceExampleAux fuel s = s
  | 0, _, _ => rfl
  | _ + 1, [], _ => rfl
  | fuel + 1, c :: rest, h => by
    have hnp : hasPfx exPat (c :: rest) = false := by
      cases hp : hasPfx exPat (c :: rest)
      · rfl
      · exfalso
        have hcount := hasPfx_count hp backtickChar
        rw [show exPat.count backtickChar = 3 from by decide] at hcount
        omega
    have hrest : rest.count backtickChar < 3 := by
      have hsub : rest.count backtickChar ≤ (c :: rest).count backtickChar := by
        simp only [List.count_cons]
        split <;> omega
      omega
    simp only [replaceExampleAux, hnp, Bool.false_eq_true, if_false]
    rw [replaceExampleAux_fix fuel rest hrest]

/-- The fence substitution leaves any text with fewer than three backticks
unchanged (canonical fuel). -/
theorem replaceExample_fix (s : Str) (h : s.count backtickChar < 3) : replaceExample s = s :=
  replaceExampleAux_fix s.length s h

/-- A backtick span never closed before the end of input is emitted with a
closing backtick appended (and its brace or bracket wrapping stripped). -/
theorem scanLoop_unterminated (G : List GroupData) (lib : Lib) (t : Str) (link : Bool) (fuel : Nat)
    (ht : hasChar backtickChar t = false) :
    scanLoop G lib (fuel + 1) (backtickChar :: t) link
      = backtickChar :: (stripWrap t ++ [backtickChar]) := by
  simp [scanLoop, eatUntil_not_mem ht, scanLoop_nil]

/-- Stripping the outer wrapping cannot increase any character count. -/
theorem stripWrap_count_le (t : Str) (c : Char) : (stripWrap t).count c ≤ t.count c := by
  unfold stripWrap
  split
  · exact le_trans (List.Sublist.count_le (List.dropLast_sublist _) c)
      (List.Sublist.count_le (List.drop_sublist _ _) c)
  · exact Nat.le_refl _

/-- C10 (amended): an input consisting of a final backtick-opened code span
with no closing backtick is still processed to completion: the span is
emitted wrapped in backticks on both sides (with the one-layer brace or
bracket stripping applied), and for such span-only inputs the output has
exactly one more backtick than the input.  (For longer inputs the global
backtick count can change through link rewriting; see the
counterexample.) -/
theorem c10_unterminated_span (G : List GroupData) (lib : Lib) (t : Str)
    (ht : t.count backtickChar = 0) :
    plain_docs_sentence G lib (backtickChar :: t)
      = backtickChar :: (stripWrap t ++ [backtickChar])
    ∧ (plain_docs_sentence G lib (backtickChar :: t)).count backtickChar
        = (backtickChar :: t).count backtickChar + 1 := by
  have htc : hasChar backtickChar t = false := by
    cases hh : hasChar backtickChar t
    · rfl
    · exfalso
      rcases List.any_eq_true.mp hh with ⟨x, hx, hbx⟩
      have hxb : x = backtickChar := by simpa using hbx
      subst hxb
      exact absurd hx (List.count_eq_zero.mp ht)
  have hfix : replaceExample (backtickChar :: t) = backtickChar :: t := by
    apply replaceExample_fix
    simp only [List.count_cons]
    split <;> omega
  have hmain : plain_docs_sentence G lib (backtickChar :: t)
      = backtickChar :: (stripWrap t ++ [backtickChar]) := by
    unfold plain_docs_sentence plainDocsScan
    rw [hfix, show (backtickChar :: t).length = t.length + 1 from rfl,
      scanLoop_unterminated G lib t false t.length htc]
  refine ⟨hmain, ?_⟩
  rw [hmain]
  have h1 : (stripWrap t).count backtickChar = 0 :=
    Nat.le_zero.mp (ht ▸ stripWrap_count_le t backtickChar)
  simp [List.count_cons, List.count_append, h1, ht]

/-- Witness for C10 (amended) at the concrete span-only input. -/
theorem c10_unterminated_span_witness :
    (strOf "abc").count backtickChar = 0
    ∧ plain_docs_sentence testGroups testLib (backtickChar :: strOf "abc")
        = backtickChar :: (stripWrap (strOf "abc") ++ [backtickChar]) := by
  exact ⟨by decide, (c10_unterminated_span testGroups testLib (strOf "abc") (by decide)).1⟩

/-- C10 counterexample: in `[a](` + backtick + `)` + backtick + `abc` the
final backtick opens an unterminated code span, yet the output does not
contain one more backtick than the input: the backtick inside the failing
link target is replaced by the fallback URL, so input and output both hold
exactly two backticks. -/
theorem c10_counterexample :
    plain_docs_sentence testGroups testLib (strOf "[a](`)`abc")
      = strOf "[a](https://typst.app/docs/404.html)`abc`"
    ∧ (strOf "[a](`)`abc").count backtickChar = 2
    ∧ (plain_docs_sentence testGroups testLib (strOf "[a](`)`abc")).count backtickChar = 2
    ∧ ¬ ((plain_docs_sentence testGroups testLib (strOf "[a](`)`abc")).count backtickChar
        = (strOf "[a](`)`abc").count backtickChar + 1) := by
  refine ⟨by rfl, by decide, by decide, by decide⟩

/-- `splitChar` on a string free of the separator yields one segment. -/
theorem splitChar_single {c : Char} : ∀ {s : Str}, hasChar c s = false → splitChar c s = [s]
  | [], _ => rfl
  | x :: xs, h => by
    rw [hasChar_cons] at h
    rcases Bool.or_eq_false_iff.mp h with ⟨h1, h2⟩
    have hx : ¬ (x = c) := by simpa using h1
    simp [splitChar, hx, splitChar_single h2]

/-- `split_link` on a slash-free link yields the whole link and an empty
tail. -/
theorem split_link_single {link : Str} (h : hasChar '/' link = false) :
    split_link link = .ok (link, []) := by
  unfold split_link
  rw [splitChar_single h]
  simp [List.drop_length]

/-- Trimming leading dollars from `'$' :: s` gives `s` when `s` does not
itself start with a dollar. -/
theorem dropWhile_dollar {s : Str} (h : s.head? ≠ some '$') :
    ('$' :: s).dropWhile (fun c => c = '$') = s := by
  cases s with
  | nil => rfl
  | cons x xs =>
    have hx : ¬ (x = '$') := fun hh => h (by simp [hh])
    simp [List.dropWhile_cons, hx]

/-- A string whose final segment is nonempty and free of `c` does not end
with `c`. -/
theorem hasSfx_single_append {c : Char} {s : Str} (hne : s ≠ []) (hnc : hasChar c s = false)
    (pre : Str) : hasSfx [c] (pre ++ s) = false := by
  unfold hasSfx
  rw [List.reverse_append]
  cases hs : s.reverse with
  | nil => exact absurd (by simpa using congrArg List.reverse hs) hne
  | cons x xs =>
    have hx : x ∈ s := by
      have hxr : x ∈ s.reverse := by rw [hs]; exact List.mem_cons_self _ _
      simpa using hxr
    have hxc : ¬ (x = c) := by
      intro hcx
      subst hcx
      have htrue : hasChar x s = true := List.any_eq_true.mpr ⟨x, hx, by simp⟩
      rw [hnc] at htrue
      exact Bool.noConfusion htrue
    show hasPfx [c] (x :: (xs ++ pre.reverse)) = false
    have hb : (c == x) = false := beq_eq_false_iff_ne.mpr (fun hh => hxc hh.symm)
    simp [hasPfx, hb]

/-- `CatKey` equality is reflexive on non-closure function keys. -/
theorem catKeyEq_refl_func {f : FuncData}
    (h : match f.rep with | FuncRepr.closure _ => False | _ => True) :
    CatKey.eq (CatKey.func f) (CatKey.func f) = true := by
  cases hr : f.rep with
  | native i => simp [CatKey.eq, hr]
  | element i => simp [CatKey.eq, hr]
  | closure i => rw [hr] at h; exact absurd h (by simp)

/-- `CatKey` equality is reflexive on type keys. -/
theorem catKeyEq_refl_typ (t : TypeData) : CatKey.eq (CatKey.typ t) (CatKey.typ t) = true := by
  simp [CatKey.eq]

/-- A key present in the map, all of whose equal keys carry the same route,
is looked up to exactly that route. -/
theorem lookupRoute_unique (m : List (CatKey × Str)) (k : CatKey) (r : Str)
    (hrefl : CatKey.eq k k = true)
    (hmem : (k, r) ∈ m)
    (huniq : ∀ e ∈ m, CatKey.eq k e.1 = true → e.2 = r) :
    lookupRoute m k = some r := by
  unfold lookupRoute
  cases hfind : m.reverse.find? (fun e => CatKey.eq k e.1) with
  | none =>
    exfalso
    have hno := List.find?_eq_none.mp hfind (k, r) (List.mem_reverse.mpr hmem)
    simp [hrefl] at hno
  | some e' =>
    have hp := List.find?_some hfind
    have hm : e' ∈ m := List.mem_reverse.mp (List.mem_of_find?_eq_some hfind)
    have he2 := huniq e' hm (by simpa using hp)
    simp [he2]

/-- `workMeasure` on a cons cell. -/
theorem workMeasure_cons (w : WorkItem) (rest : List WorkItem) :
    workMeasure (w :: rest) = w.1.ssize + workMeasure rest := rfl

/-- `workMeasure` distributes over append. -/
theorem workMeasure_append (a b : List WorkItem) :
    workMeasure (a ++ b) = workMeasure a + workMeasure b := by
  unfold workMeasure
  rw [List.map_append, List.sum_append]

/-- `workMeasure` is invariant under reversal. -/
theorem workMeasure_reverse (a : List WorkItem) : workMeasure a.reverse = workMeasure a := by
  unfold workMeasure
  rw [List.map_reverse, List.sum_reverse]

/-- Every scope has positive size. -/
theorem ssize_pos (s : Scope) : 1 ≤ s.ssize := by
  cases s with
  | mk bs => simp [Scope.ssize]

/-- Each binding pushes children whose total size is strictly below the
binding's own size. -/
theorem processBinding_push_size (G : List GroupData) (pn : Option Str) (cat : Option Category)
    (b : Binding) :
    (((processBinding G pn cat b).2.map (fun w => w.1.ssize)).sum) + 1 ≤ b.bsize := by
  obtain ⟨n, bc, v⟩ := b
  cases v with
  | func f =>
    obtain ⟨rep, nm, params, sc⟩ := f
    cases hco : cat.or bc with
    | none =>
      cases sc <;>
        simp [processBinding, hco, Binding.bsize, Value.vsize, FuncData.fsize, FuncData.fscope,
          Scope.ssize] <;>
        omega
    | some c =>
      cases nm with
      | none =>
        cases sc <;>
          simp [processBinding, hco, FuncData.fname, Binding.bsize, Value.vsize,
            FuncData.fsize, FuncData.fscope]
      | some fn =>
        rcases hg : G.find? (fun g => g.gcategory == c.cname && g.gfilter.any (fun x => x == fn))
          with _ | grp <;>
          cases sc <;>
            simp [processBinding, hco, FuncData.fname, hg, Binding.bsize,
              Value.vsize, FuncData.fsize, FuncData.fscope] <;>
            omega
  | typ t =>
    obtain ⟨ti, tn, ts⟩ := t
    cases hco : cat.or bc with
    | none =>
      simp [processBinding, hco, Binding.bsize, Value.vsize, TypeData.tsize, TypeData.tscope]
      omega
    | some c =>
      simp [processBinding, hco, Binding.bsize, Value.vsize, TypeData.tsize, TypeData.tscope]
      omega
  | module m =>
    simp [processBinding, Binding.bsize, Value.vsize]
    omega
  | other =>
    simp [processBinding, Binding.bsize, Value.vsize]

/-- A scope's bindings push children whose total size is strictly below the
scope body's size. -/
theorem processBindings_push_size (G : List GroupData) (pn : Option Str) (cat : Option Category) :
    ∀ bs : List Binding,
    (((processBindings G pn cat bs).2.map (fun w => w.1.ssize)).sum) + 1 ≤ bindsSize bs
  | [] => by simp [processBindings, bindsSize]
  | b :: bs => by
    have h1 := processBinding_push_size G pn cat b
    have h2 := processBindings_push_size G pn cat bs
    simp only [processBindings, bindsSize, List.map_append, List.sum_append]
    omega

/-- An insertion of any binding of a scope appears among the scope's
accumulated insertions. -/
theorem processBindings_mem (G : List GroupData) (pn : Option Str) (cat : Option Category) :
    ∀ (bs : List Binding) (b : Binding), b ∈ bs →
    ∀ e ∈ (processBinding G pn cat b).1, e ∈ (processBindings G pn cat bs).1 := by
  intro bs
  induction bs with
  | nil => intro b hb; cases hb
  | cons b0 rest ih =>
    intro b hb e he
    rcases List.mem_cons.mp hb with rfl | hb'
    · exact List.mem_append_left _ he
    · exact List.mem_append_right _ (ih b hb' e he)

/-- Insertions of any pending work item appear in the build loop's output,
given sufficient fuel. -/
theorem buildLoop_mem (G : List GroupData) :
    ∀ (fuel : Nat) (work : List WorkItem) (item : WorkItem), item ∈ work →
    workMeasure work ≤ fuel →
    ∀ e ∈ (processBindings G item.2.1 item.2.2 item.1.binds).1, e ∈ buildLoop G fuel work := by
  intro fuel
  induction fuel with
  | zero =>
    intro work item hmem hle e _
    exfalso
    have h1 : item.1.ssize ≤ workMeasure work := by
      unfold workMeasure
      exact List.single_le_sum (fun x _ => Nat.zero_le x) _
        (List.mem_map_of_mem (fun w => w.1.ssize) hmem)
    have h2 := ssize_pos item.1
    omega
  | succ f ih =>
    intro work item hmem hle e he
    cases work with
    | nil => cases hmem
    | cons w rest =>
      obtain ⟨s, pn, c⟩ := w
      simp only [buildLoop]
      rcases List.mem_cons.mp hmem with rfl | hmem'
      · exact List.mem_append_left _ he
      · refine List.mem_append_right _ ?_
        refine ih ((processBindings G pn c s.binds).2.reverse ++ rest) item
          (List.mem_append_right _ hmem') ?_ e he
        have hp : (((processBindings G pn c s.binds).2.map (fun w => w.1.ssize)).sum) + 1
            ≤ bindsSize s.binds := processBindings_push_size G pn c s.binds
        have hs : s.ssize = 1 + bindsSize s.binds := by
          cases s with
          | mk bs => simp [Scope.ssize, Scope.binds]
        have hle2 : s.ssize + workMeasure rest ≤ f + 1 := by
          rw [workMeasure_cons] at hle
          simpa using hle
        rw [workMeasure_append, workMeasure_reverse]
        unfold workMeasure
        unfold workMeasure at hle2
        omega

/-- `resolve_definition` on a single-segment `$name` head bound at the
root: the grouped route when a group matches, else the default
per-symbol route (without trailing slash). -/
theorem resolve_definition_single (G : List GroupData) (lib : Lib) (bname base : Str) (b : Binding)
    (cat : Category)
    (hget : lib.global.get bname = some b)
    (hcat : b.cat = some cat)
    (hmod : ∀ m, b.val ≠ Value.module m)
    (hdot : hasChar '.' bname = false)
    (hhead : bname.head? ≠ some '$') :
    resolve_definition G lib ('$' :: bname) base
      = match G.find? (fun g => g.gcategory == cat.cname && g.gfilter.any (fun x => x == bname)) with
        | some grp => .ok (base ++ strOf "reference/" ++ grp.gcategory ++ strOf "/" ++ grp.gname
            ++ strOf "/#functions-" ++ bname)
        | none => .ok (base ++ strOf "reference/" ++ cat.cname ++ strOf "/" ++ bname) := by
  have hgm : get_module lib.global bname
      = .error (strOf "module does not contain module " ++ bname) := by
    unfold get_module
    rw [hget, Option.map_some']
    cases hbv : b.val with
    | func f => rfl
    | typ t => rfl
    | module m => exact absurd hbv (hmod m)
    | other => rfl
  have hwalk : walk lib.global none [bname] = (lib.global, some cat, [bname]) := by
    simp only [walk]
    rw [hgm]
    simp [hget, hcat]
  have hfield : lib.global.fieldV bname = .ok b.val := by
    unfold Scope.fieldV
    rw [hget]
  simp only [resolve_definition, dropWhile_dollar hhead, splitChar_single hdot, hwalk]
  rw [hfield]
  rcases hgrp : G.find? (fun g => g.gcategory == cat.cname && g.gfilter.any (fun x => x == bname))
    with _ | grp <;> simp [hgrp]

/-- `resolve` on a slash-free `$name` link that misses the known table:
the definition route, slash-normalized. -/
theorem resolve_dollar_single (G : List GroupData) (lib : Lib) (bname base r₁ : Str)
    (hslash : hasChar '/' bname = false)
    (hknown : resolve_known ('$' :: bname) base = none)
    (hdef : resolve_definition G lib ('$' :: bname) base = .ok r₁) :
    resolve G lib ('$' :: bname) base
      = .ok (if !(hasChar '#' r₁ || hasChar '?' r₁) && !hasSfx (strOf "/") r₁
             then r₁ ++ strOf "/" else r₁) := by
  have hid : (hasPfx (strOf "#") ('$' :: bname) || hasPfx (strOf "http") ('$' :: bname)) = false := by
    rw [show strOf "#" = '#' :: strOf "" from rfl, show strOf "http" = 'h' :: strOf "ttp" from rfl,
      hasPfx_cons_ne (by decide), hasPfx_cons_ne (by decide)]
    rfl
  have hsl : hasChar '/' ('$' :: bname) = false := by
    rw [hasChar_cons, hslash]
    rfl
  unfold resolve
  rw [if_neg (by simp [hid]), split_link_single hsl]
  dsimp only
  rw [hknown]
  dsimp only
  rw [hdef]
  simp

/-- C3 (amended): for a root-scope Function or Type binding with a known
category, the route the SymbolIndex build inserts agrees with the
LinkResolver only after `resolve`'s trailing-slash normalization: `resolve
"$name"` returns exactly `base ++ r` for the inserted route `r` (grouped
routes agree directly; ungrouped default routes agree because the map
stores a trailing slash that `resolve_definition` alone omits — see the
counterexample); and when the key is indexable and uniquely routed,
`route_of_value` returns that same `r`. -/
theorem c3_index_resolver_agreement :
    (∀ (G : List GroupData) (lib : Lib) (base bname : Str) (cat : Category) (f : FuncData),
      lib.global.get bname = some (Binding.mk bname (some cat) (Value.func f)) →
      f.fname = some bname →
      hasChar '.' bname = false →
      hasChar '/' bname = false →
      bname ≠ [] →
      bname.head? ≠ some '$' →
      resolve_known ('$' :: bname) base = none →
      hasChar '#' (base ++ (strOf "reference/" ++ (cat.cname ++ (strOf "/" ++ bname)))) = false →
      hasChar '?' (base ++ (strOf "reference/" ++ (cat.cname ++ (strOf "/" ++ bname)))) = false →
      ∃ r, (CatKey.func f, r) ∈ ROUTE_MAPS G lib
        ∧ resolve G lib ('$' :: bname) base = .ok (base ++ r)
        ∧ ((match f.rep with | FuncRepr.closure _ => False | _ => True) →
            (∀ e ∈ ROUTE_MAPS G lib, CatKey.eq (CatKey.func f) e.1 = true → e.2 = r) →
            route_of_value G lib (Value.func f) = some r))
    ∧ (∀ (G : List GroupData) (lib : Lib) (base bname : Str) (cat : Category) (t : TypeData),
      lib.global.get bname = some (Binding.mk bname (some cat) (Value.typ t)) →
      urlify bname = bname →
      G.find? (fun g => g.gcategory == cat.cname && g.gfilter.any (fun x => x == bname)) = none →
      hasChar '.' bname = false →
      hasChar '/' bname = false →
      bname ≠ [] →
      bname.head? ≠ some '$' →
      resolve_known ('$' :: bname) base = none →
      hasChar '#' (base ++ (strOf "reference/" ++ (cat.cname ++ (strOf "/" ++ bname)))) = false →
      hasChar '?' (base ++ (strOf "reference/" ++ (cat.cname ++ (strOf "/" ++ bname)))) = false →
      ∃ r, (CatKey.typ t, r) ∈ ROUTE_MAPS G lib
        ∧ resolve G lib ('$' :: bname) base = .ok (base ++ r)
        ∧ ((∀ e ∈ ROUTE_MAPS G lib, CatKey.eq (CatKey.typ t) e.1 = true → e.2 = r) →
            route_of_value G lib (Value.typ t) = some r)) := by
  constructor
  · intro G lib base bname cat f hget hfn hdot hslash hne hhd hknown hnum hq
    have hbmem : Binding.mk bname (some cat) (Value.func f) ∈ lib.global.binds := by
      have hg2 := hget
      unfold Scope.get at hg2
      exact List.mem_of_find?_eq_some hg2
    have hmod : ∀ m, (Binding.mk bname (some cat) (Value.func f)).val ≠ Value.module m := by
      intro m h
      simp [Binding.val] at h
    have hdefm := resolve_definition_single G lib bname base _ cat hget (by rfl) hmod hdot hhd
    rcases hgrp : G.find? (fun g => g.gcategory == cat.cname && g.gfilter.any (fun x => x == bname))
      with _ | grp
    · -- ungrouped: default route, map stores it with a trailing slash
      rw [hgrp] at hdefm
      have hpb1 : (processBinding G none none (Binding.mk bname (some cat) (Value.func f))).1
          = [(CatKey.func f,
              strOf "reference/" ++ (cat.cname ++ (strOf "/" ++ (bname ++ strOf "/"))))] := by
        simp [processBinding, hfn, hgrp]
      have hpmem := processBindings_mem G none none lib.global.binds _ hbmem
        (CatKey.func f, strOf "reference/" ++ (cat.cname ++ (strOf "/" ++ (bname ++ strOf "/"))))
        (by rw [hpb1]; exact List.mem_singleton_self _)
      have hmemR : (CatKey.func f,
          strOf "reference/" ++ (cat.cname ++ (strOf "/" ++ (bname ++ strOf "/"))))
          ∈ ROUTE_MAPS G lib := by
        unfold ROUTE_MAPS
        exact buildLoop_mem G _ (initWork lib) (lib.global, none, none)
          (by simp [initWork]) (Nat.le_refl _) _ hpmem
      refine ⟨_, hmemR, ?_, ?_⟩
      · have hres := resolve_dollar_single G lib bname base _ hslash hknown hdefm
        have hsfx : hasSfx (strOf "/")
            (base ++ strOf "reference/" ++ cat.cname ++ strOf "/" ++ bname) = false := by
          rw [show strOf "/" = ['/'] from rfl]
          exact hasSfx_single_append hne hslash _
        have hsfx2 : hasSfx (strOf "/")
            (base ++ (strOf "reference/" ++ (cat.cname ++ (strOf "/" ++ bname)))) = false := by
          simpa using hsfx
        rw [hres, if_pos (by simp [hnum, hq, hsfx2])]
        simp
      · intro hnc huniq
        show lookupRoute (ROUTE_MAPS G lib) (CatKey.func f) = some _
        exact lookupRoute_unique _ _ _ (catKeyEq_refl_func hnc) hmemR huniq
    · -- grouped: both sides carry the group-listing route
      rw [hgrp] at hdefm
      have hpb1 : (processBinding G none none (Binding.mk bname (some cat) (Value.func f))).1
          = [(CatKey.func f, strOf "reference/" ++ (grp.gcategory ++ (strOf "/" ++ (grp.gname
              ++ (strOf "/#functions-" ++ bname)))))] := by
        simp [processBinding, hfn, hgrp]
      have hpmem := processBindings_mem G none none lib.global.binds _ hbmem
        (CatKey.func f, strOf "reference/" ++ (grp.gcategory ++ (strOf "/" ++ (grp.gname
          ++ (strOf "/#functions-" ++ bname)))))
        (by rw [hpb1]; exact List.mem_singleton_self _)
      have hmemR : (CatKey.func f, strOf "reference/" ++ (grp.gcategory ++ (strOf "/" ++ (grp.gname
          ++ (strOf "/#functions-" ++ bname))))) ∈ ROUTE_MAPS G lib := by
        unfold ROUTE_MAPS
        exact buildLoop_mem G _ (initWork lib) (lib.global, none, none)
          (by simp [initWork]) (Nat.le_refl _) _ hpmem
      refine ⟨_, hmemR, ?_, ?_⟩
      · have hres := resolve_dollar_single G lib bname base _ hslash hknown hdefm
        have hhash : hasChar '#' (base ++ strOf "reference/" ++ grp.gcategory ++ strOf "/"
            ++ grp.gname ++ strOf "/#functions-" ++ bname) = true := by
          simp [hasChar_append, show hasChar '#' (strOf "/#functions-") = true from by decide]
        have hhash2 : hasChar '#' (base ++ (strOf "reference/" ++ (grp.gcategory ++ (strOf "/"
            ++ (grp.gname ++ (strOf "/#functions-" ++ bname)))))) = true := by
          simpa using hhash
        rw [hres, if_neg (by simp [hhash2])]
        simp
      · intro hnc huniq
        show lookupRoute (ROUTE_MAPS G lib) (CatKey.func f) = some _
        exact lookupRoute_unique _ _ _ (catKeyEq_refl_func hnc) hmemR huniq
  · intro G lib base bname cat t hget hurl hgrp hdot hslash hne hhd hknown hnum hq
    have hbmem : Binding.mk bname (some cat) (Value.typ t) ∈ lib.global.binds := by
      have hg2 := hget
      unfold Scope.get at hg2
      exact List.mem_of_find?_eq_some hg2
    have hmod : ∀ m, (Binding.mk bname (some cat) (Value.typ t)).val ≠ Value.module m := by
      intro m h
      simp [Binding.val] at h
    have hdefm := resolve_definition_single G lib bname base _ cat hget (by rfl) hmod hdot hhd
    rw [hgrp] at hdefm
    have hpb1 : (processBinding G none none (Binding.mk bname (some cat) (Value.typ t))).1
        = [(CatKey.typ t,
            strOf "reference/" ++ (cat.cname ++ (strOf "/" ++ (bname ++ strOf "/"))))] := by
      simp [processBinding, hurl]
    have hpmem := processBindings_mem G none none lib.global.binds _ hbmem
      (CatKey.typ t, strOf "reference/" ++ (cat.cname ++ (strOf "/" ++ (bname ++ strOf "/"))))
      (by rw [hpb1]; exact List.mem_singleton_self _)
    have hmemR : (CatKey.typ t,
        strOf "reference/" ++ (cat.cname ++ (strOf "/" ++ (bname ++ strOf "/"))))
        ∈ ROUTE_MAPS G lib := by
      unfold ROUTE_MAPS
      exact buildLoop_mem G _ (initWork lib) (lib.global, none, none)
        (by simp [initWork]) (Nat.le_refl _) _ hpmem
    refine ⟨_, hmemR, ?_, ?_⟩
    · have hres := resolve_dollar_single G lib bname base _ hslash hknown hdefm
      have hsfx : hasSfx (strOf "/")
          (base ++ strOf "reference/" ++ cat.cname ++ strOf "/" ++ bname) = false := by
        rw [show strOf "/" = ['/'] from rfl]
        exact hasSfx_single_append hne hslash _
      have hsfx2 : hasSfx (strOf "/")
          (base ++ (strOf "reference/" ++ (cat.cname ++ (strOf "/" ++ bname)))) = false := by
        simpa using hsfx
      rw [hres, if_pos (by simp [hnum, hq, hsfx2])]
      simp
    · intro huniq
      show lookupRoute (ROUTE_MAPS G lib) (CatKey.typ t) = some _
      exact lookupRoute_unique _ _ _ (catKeyEq_refl_typ t) hmemR huniq

/-- Witness for C3 (amended): on the concrete model library, the indexed
route for `cite` is `reference/model/cite/` and `resolve "$cite"` returns
the base plus exactly that route. -/
theorem c3_index_resolver_agreement_witness :
    ∃ r, (CatKey.func citeFunc, r) ∈ ROUTE_MAPS testGroups testLib
      ∧ resolve testGroups testLib ('$' :: strOf "cite") (strOf "B/") = .ok (strOf "B/" ++ r)
      ∧ ((match citeFunc.rep with | FuncRepr.closure _ => False | _ => True) →
          (∀ e ∈ ROUTE_MAPS testGroups testLib,
            CatKey.eq (CatKey.func citeFunc) e.1 = true → e.2 = r) →
          route_of_value testGroups testLib (Value.func citeFunc) = some r) :=
  c3_index_resolver_agreement.1 testGroups testLib (strOf "B/") (strOf "cite")
    ⟨strOf "model"⟩ citeFunc (by rfl) (by rfl) (by decide) (by decide) (by decide) (by decide)
    (by rfl) (by decide) (by decide)

/-- C3 counterexample: on the concrete model library the SymbolIndex build
inserts `reference/model/cite/` while `resolve_definition` constructs
`reference/model/cite` (base empty) — the two routes differ by the
trailing slash, so they are not the same route as the claim states. -/
theorem c3_counterexample :
    resolve_definition testGroups testLib (strOf "$cite") [] = .ok (strOf "reference/model/cite")
    ∧ (ROUTE_MAPS testGroups testLib).map (fun e => e.2) = [strOf "reference/model/cite/"]
    ∧ strOf "reference/model/cite" ≠ strOf "reference/model/cite/" := by
  refine ⟨by rfl, by rfl, by decide⟩
